import Mathlib

/-!
Verification development for `scripts/funding.py`, a funding-rate
aggregator for crypto perpetual-futures markets.  The Python source is
shallowly embedded: JSON documents become a tagged-union `Json` value,
Python floats become rationals, dictionaries become association lists
(insertion-ordered, unique keys), and fallible operations return
`Option`.  The two stdlib string parsers used by the source
(`float(str)` and `datetime.fromisoformat(...).timestamp()`) are
external collaborators and are abstracted as a parameter record
`StdStr`; every theorem quantifies over it or instantiates it with a
trivial parser.
-/

set_option maxRecDepth 4000
set_option linter.unusedVariables false

namespace FundingPy

/-- A JSON value as consumed by the script: the payloads of both HTTP
endpoints are opaque value trees.  Numbers are modelled as rationals
(the script only compares, divides by constants, and copies them). -/
inductive Json where
  | null : Json
  | bool : Bool → Json
  | num : ℚ → Json
  | str : String → Json
  | arr : List Json → Json
  | obj : List (String × Json) → Json

/-- External stdlib string parsers used by the source, abstracted:
`floatOfStr` models `float(s)` on a string argument, `tsOfStr` models
the body of the string branch of `_parse_ts` (strip, `Z` handling and
`datetime.fromisoformat(s).timestamp()`), both returning no value when
the library call raises. -/
structure StdStr where
  floatOfStr : String → Option ℚ
  tsOfStr : String → Option ℚ

/-- A parser instance whose string parsers always fail; used to
instantiate witnesses (no claim depends on string parsing). -/
def noStr : StdStr := ⟨fun _ => none, fun _ => none⟩

/-- Python truthiness of a JSON value: `None`, `False`, `0`, `""`,
`[]` and `\x7b\x7d` are falsy, everything else truthy. -/
def truthy : Json → Bool
  | .null => false
  | .bool b => b
  | .num q => decide (q ≠ 0)
  | .str s => decide (s ≠ "")
  | .arr l => !l.isEmpty
  | .obj l => !l.isEmpty

/-- Models Python `float(val)` applied to a JSON value, with a raised
exception mapped to `none`: numbers pass through, booleans are `int`
subclasses (`float(True) = 1.0`), strings go to the stdlib parser, and
`None`/lists/dicts raise. -/
def asFloat (P : StdStr) : Json → Option ℚ
  | .num q => some q
  | .bool b => some (if b then 1 else 0)
  | .str s => P.floatOfStr s
  | _ => none

/-- Python `abs` on a rational, written with an explicit sign test so
that it computes by kernel reduction. -/
def absQ (x : ℚ) : ℚ := if x < 0 then -x else x

/-- `absQ` agrees with the mathematical absolute value. -/
theorem absQ_eq_abs (x : ℚ) : absQ x = |x| := by
  rw [absQ]
  by_cases h : x < 0
  · rw [if_pos h, abs_of_neg h]
  · rw [if_neg h, abs_of_nonneg (not_lt.mp h)]

/-- Models `coerce_rate` (funding.py lines 34-46): parse to float, a
magnitude in (1, 100] is treated as a percentage and divided by 100,
and a post-scaling magnitude above 0.5 is rejected. -/
def coerce_rate (P : StdStr) (val : Json) : Option ℚ :=
  match asFloat P val with
  | none => none
  | some x =>
    let y := if 1 < absQ x ∧ absQ x ≤ 100 then x / 100 else x
    if mkRat 1 2 < absQ y then none else some y

/-- The source's literal `0.5` is written `mkRat 1 2` in `coerce_rate`
so that it computes by kernel reduction; it is the same rational. -/
theorem mkRat_half : (mkRat 1 2 : ℚ) = 1 / 2 := by
  norm_num [mkRat, Rat.normalize]

/-! String utilities.  The source relies on Python `str` methods
(`upper`, `replace`, `strip`, `split`); they are embedded as plain
structural functions over character lists so that all computations
reduce. -/

/-- Uppercase a string; models Python `str.upper` on the ASCII strings
this program handles. -/
def upperStr (s : String) : String := String.mk (s.data.map Char.toUpper)

/-- Fuel-driven worker for `replL`; each step consumes at least one
character, so fuel equal to the input length never runs out.  The
recursion is structural on the fuel so that every application to
concrete strings reduces definitionally. -/
def replF (pat rep : List Char) : Nat → List Char → List Char
  | _, [] => []
  | 0, s => s
  | fuel + 1, c :: rest =>
    if pat ≠ [] ∧ pat.isPrefixOf (c :: rest) then
      rep ++ replF pat rep fuel ((c :: rest).drop pat.length)
    else
      c :: replF pat rep fuel rest

/-- Replace every non-overlapping occurrence of `pat` (leftmost first)
by `rep`; models Python `str.replace` for a non-empty pattern. -/
def replL (pat rep s : List Char) : List Char := replF pat rep s.length s

/-- Fuel-driven worker for `splitL`. -/
def splitF (pat : List Char) : Nat → List Char → List (List Char)
  | _, [] => [[]]
  | 0, s => [s]
  | fuel + 1, c :: rest =>
    if pat ≠ [] ∧ pat.isPrefixOf (c :: rest) then
      [] :: splitF pat fuel ((c :: rest).drop pat.length)
    else
      match splitF pat fuel rest with
      | [] => [[c]]
      | hd :: tl => (c :: hd) :: tl

/-- Split on every non-overlapping occurrence of `pat`; models Python
`str.split(sep)` for a non-empty separator (so `""` gives `[""]`). -/
def splitL (pat s : List Char) : List (List Char) := splitF pat s.length s

/-- Strip leading and trailing whitespace; models Python `str.strip()`. -/
def trimL (s : List Char) : List Char :=
  ((s.dropWhile Char.isWhitespace).reverse.dropWhile Char.isWhitespace).reverse

/-- The intermediate string `s` of `base_from_symbol` (funding.py
line 49): uppercase, rewrite `/` and `__` to `-`, strip. -/
def bfsStr (symbol : String) : List Char :=
  trimL (replL "__".data "-".data (replL "/".data "-".data (upperStr symbol).data))

/-- The non-empty parts of the rewritten symbol (funding.py line 50). -/
def normTokens (symbol : String) : List (List Char) :=
  (splitL "-".data (bfsStr symbol)).filter (fun p => p ≠ [])

/-- Models `base_from_symbol` (funding.py lines 48-51): the first
non-empty part, falling back to the stripped string or `?`. -/
def base_from_symbol (symbol : String) : String :=
  match normTokens symbol with
  | p :: _ => String.mk p
  | [] => if bfsStr symbol = [] then "?" else String.mk (bfsStr symbol)

/-- Models `clean_alnum` (funding.py lines 26-27): keep alphanumeric
characters and lowercase them. -/
def clean_alnum (s : String) : String :=
  String.mk ((s.data.filter Char.isAlphanum).map Char.toLower)

/-- The fixed alias table `PLAT_MAP` (funding.py lines 54-60), in
insertion order. -/
def PLAT_MAP : List (String × String) :=
  [("lighter", "Lighter"), ("zklighter", "Lighter"),
   ("hyperliquid", "Hyperliquid"), ("hyperliquidv2", "Hyperliquid"),
   ("hyper", "Hyperliquid")]

/-- Contiguous-substring test on character lists. -/
def isInfixL (pat : List Char) : List Char → Bool
  | [] => pat.isEmpty
  | c :: rest => pat.isPrefixOf (c :: rest) || isInfixL pat rest

/-- Contiguous-substring test, models Python `a in b` on strings. -/
def substrOf (a b : String) : Bool := isInfixL a.data b.data

/-- Models `norm_platform_label` (funding.py lines 65-74): a falsy
label resolves to nothing; otherwise clean the label, try an exact
table lookup, then the first table key contained in the cleaned label. -/
def norm_platform_label (raw : String) : Option String :=
  if raw = "" then none
  else
    match PLAT_MAP.find? (fun kv => kv.1 = clean_alnum raw) with
    | some kv => some kv.2
    | none =>
      (PLAT_MAP.find? (fun kv => substrOf kv.1 (clean_alnum raw))).map (fun kv => kv.2)

/-- `PLATFORM_KEYS` (funding.py line 61). -/
def PLATFORM_KEYS : List String :=
  ["platform", "exchange", "venue", "source", "provider", "dex", "market_provider"]

/-- `SYMBOL_KEYS` (funding.py line 62). -/
def SYMBOL_KEYS : List String :=
  ["symbol", "market", "pair", "name", "base", "asset", "coin", "ticker"]

/-- `FUND_KEYS` (funding.py line 63). -/
def FUND_KEYS : List String :=
  ["funding_rate", "fundingrate", "hourlyfundingrate", "predictedfundingrate", "rate", "value"]

/-- Lowercase a string, models Python `str.lower` on ASCII. -/
def lowerStr (s : String) : String := String.mk (s.data.map Char.toLower)

/-- Models `is_probable_symbol_key` (funding.py lines 76-77). -/
def is_probable_symbol_key (k : String) : Bool :=
  SYMBOL_KEYS.any (fun x => substrOf x (lowerStr k))

/-- Models `is_probable_platform_key` (funding.py lines 79-80). -/
def is_probable_platform_key (k : String) : Bool :=
  PLATFORM_KEYS.any (fun x => substrOf x (lowerStr k))

/-- Models `is_probable_rate_key` (funding.py lines 82-84). -/
def is_probable_rate_key (k : String) : Bool :=
  let kl := lowerStr k
  FUND_KEYS.any (fun x => substrOf x kl) ||
    (substrOf "fund" kl && !substrOf "index" kl && !substrOf "time" kl)

/-! The tree walker (`traverse`, funding.py lines 86-93).  The Python
generator is a lazy finite sequence; it is embedded as the list of the
pairs it yields, in yield order.  The recursion through the nested
lists of `Json` is expressed as a mutual trio. -/

mutual

/-- Models `traverse`: a dict yields itself then its values in key
order, a list recurses element-wise with the stringified index
appended to the path, scalars yield nothing. -/
def traverse : Json → List String → List (Json × List String)
  | .obj kvs, path => (.obj kvs, path) :: traverseKVs kvs path
  | .arr l, path => traverseArr l 0 path
  | _, _ => []

/-- Walk the entries of a dict node in order (the inner loop of
`traverse` for dicts). -/
def traverseKVs : List (String × Json) → List String → List (Json × List String)
  | [], _ => []
  | kv :: rest, path => traverse kv.2 (path ++ [kv.1]) ++ traverseKVs rest path

/-- Walk the elements of a list node with `enumerate` indices (the
inner loop of `traverse` for lists), starting at index `i`. -/
def traverseArr : List Json → Nat → List String → List (Json × List String)
  | [], _, _ => []
  | v :: rest, i, path => traverse v (path ++ [toString i]) ++ traverseArr rest (i + 1) path

end

/-- Whether a JSON value is an object node. -/
def Json.isObj : Json → Bool
  | .obj _ => true
  | _ => false

mutual

/-- The number of object-type nodes in a JSON value, defined by direct
structural counting, independently of the walker. -/
def countObjs : Json → Nat
  | .obj kvs => 1 + countObjsKVs kvs
  | .arr l => countObjsList l
  | _ => 0

/-- Object-node count of a list of values. -/
def countObjsList : List Json → Nat
  | [] => 0
  | v :: rest => countObjs v + countObjsList rest

/-- Object-node count of the values of a dict. -/
def countObjsKVs : List (String × Json) → Nat
  | [] => 0
  | kv :: rest => countObjs kv.2 + countObjsKVs rest

end

/-! The field classifier / record extractor (`extract_record`,
funding.py lines 95-143).  Python truthiness on the optional string
accumulators (`not platform`, `not symbol`, `if symbol: break`) treats
both `None` and the empty string as falsy. -/

/-- Truthiness of an optional string accumulator. -/
def truthyS : Option String → Bool
  | none => false
  | some s => decide (s ≠ "")

/-- Whether a JSON value is one of `int`, `float`, `str` for the
`isinstance` tests of the extractor (Python `bool` is an `int`). -/
def isNumish : Json → Bool
  | .num _ => true
  | .bool _ => true
  | .str _ => true
  | _ => false

/-- Phase 1 of `extract_record` (lines 101-109): one pass over the
node's entries updating (platform, symbol, rate); string values feed
the platform and symbol slots while any scalar value can feed the rate
slot, each slot only while it is still falsy (rate: still `None`). -/
def erDirect (P : StdStr) (d : List (String × Json)) :
    Option String × Option String × Option ℚ :=
  d.foldl
    (fun st kv =>
      let p1 := match kv.2 with
        | .str s =>
          if is_probable_platform_key kv.1 && !truthyS st.1 then norm_platform_label s else st.1
        | _ => st.1
      let s1 := match kv.2 with
        | .str s =>
          if is_probable_symbol_key kv.1 && !truthyS st.2.1 then some s else st.2.1
        | _ => st.2.1
      let r1 :=
        if isNumish kv.2 && is_probable_rate_key kv.1 && st.2.2.isNone
        then coerce_rate P kv.2 else st.2.2
      (p1, s1, r1))
    (none, none, none)

/-- Phase 2 fallback (lines 111-117): scan path segments
deepest-to-shallowest for the first resolvable platform alias. -/
def erPlatFromPath (path : List String) : Option String :=
  path.reverse.findSome? norm_platform_label

/-- First symbol-ish string value one level inside a nested dict
(inner loop of lines 119-128). -/
def innerSym (inner : List (String × Json)) : Option String :=
  inner.findSome? (fun ikv =>
    match ikv.2 with
    | .str s => if is_probable_symbol_key ikv.1 then some s else none
    | _ => none)

/-- Phase 3 fallback (lines 119-128): while the symbol is falsy, look
one nesting level into each dict value for a symbol-ish string. -/
def erNestedSym (d : List (String × Json)) (sym : Option String) : Option String :=
  d.foldl
    (fun sy kv =>
      if truthyS sy then sy
      else match kv.2 with
        | .obj inner =>
          match innerSym inner with
          | some s => some s
          | none => sy
        | _ => sy)
    sym

/-- Phase 4 fallback (lines 130-140): while the rate is `None`, look
one nesting level into each dict value for the first scalar rate-ish
entry that coerces. -/
def erNestedRate (P : StdStr) (d : List (String × Json)) : Option ℚ :=
  d.foldl
    (fun rr kv =>
      if rr.isSome then rr
      else match kv.2 with
        | .obj inner =>
          inner.foldl
            (fun r3 ikv =>
              if r3.isSome then r3
              else if is_probable_rate_key ikv.1 && isNumish ikv.2
                then coerce_rate P ikv.2 else r3)
            rr
        | _ => rr)
    none

/-- Python `symbol or ""`. -/
def orEmpty : Option String → String
  | none => ""
  | some s => s

/-- Models `extract_record` (funding.py lines 95-143): direct pass,
then the path, nested-symbol and nested-rate fallbacks, and finally
the base derivation (`base if symbol else None`). -/
def extract_record (P : StdStr) (d : List (String × Json)) (path : List String) :
    Option String × Option String × Option ℚ :=
  let st := erDirect P d
  let plat := if truthyS st.1 then st.1 else erPlatFromPath path
  let sym := if truthyS st.2.1 then st.2.1 else erNestedSym d st.2.1
  let rate := if st.2.2.isSome then st.2.2 else erNestedRate P d
  (plat, if truthyS sym then some (base_from_symbol (orEmpty sym)) else none, rate)

/-! The cross-venue reconciler (`fetch_agg`, funding.py lines
145-190).  The table `by_base` is a dict of dicts keyed by base then
platform; both levels are embedded as insertion-ordered association
lists with in-place overwrite, exactly the Python dict behaviour. -/

/-- One per-platform row of the table. -/
abbrev Row : Type := List (String × ℚ)

/-- The funding table: base asset to row. -/
abbrev Tbl : Type := List (String × Row)

/-- Dict read: value of the first (only) entry with the given key. -/
def rowGet : Row → String → Option ℚ
  | [], _ => none
  | e :: t, p => if e.1 = p then some e.2 else rowGet t p

/-- Dict read at the table level. -/
def tblGet : Tbl → String → Option Row
  | [], _ => none
  | e :: t, b => if e.1 = b then some e.2 else tblGet t b

/-- Dict assignment `row[p] = r`: overwrite in place, else append. -/
def rowUpsert : Row → String → ℚ → Row
  | [], p, r => [(p, r)]
  | e :: t, p, r => if e.1 = p then (p, r) :: t else e :: rowUpsert t p r

/-- Models `by_base.setdefault(base, dict())`: append an empty row iff
the key is absent. -/
def setdefaultRow : Tbl → String → Tbl
  | [], b => [(b, [])]
  | e :: t, b => if e.1 = b then e :: t else e :: setdefaultRow t b

/-- Models `by_base[base][plat] = rate` on a table that contains the
key (a missing key would raise in Python; `setdefaultRow` runs first). -/
def writeRate : Tbl → String → String → ℚ → Tbl
  | [], _, _, _ => []
  | e :: t, b, p, r => if e.1 = b then (e.1, rowUpsert e.2 p r) :: t else e :: writeRate t b p r

/-- The rate stored for a (base, platform) pair. -/
def rateAt (tbl : Tbl) (b p : String) : Option ℚ :=
  (tblGet tbl b).bind (fun row => rowGet row p)

/-- One accepted triple folded into the accumulator (funding.py lines
176-179): upsert the rate under (base, platform) and, for the seed
venue, append the base to the seed list if it is new. -/
def reconStep (st : Tbl × List String) (tr : String × String × ℚ) : Tbl × List String :=
  let p := tr.1
  let b := tr.2.1
  let r := tr.2.2
  let t2 := writeRate (setdefaultRow st.1 b) b p r
  let seeds := if p = "Lighter" ∧ b ∉ st.2 then st.2 ++ [b] else st.2
  (t2, seeds)

/-- Fold a stream of accepted (platform, base, rate) triples into an
empty table, as the loop of `fetch_agg` does. -/
def reconFold (ts : List (String × String × ℚ)) : Tbl × List String :=
  ts.foldl reconStep ([], [])

/-- The acceptance filter of the `fetch_agg` loop (lines 161-174): a
walked node contributes iff it is a dict whose extracted platform is
one of the two aggregator venues, whose base is truthy and whose rate
parsed.  The debug bookkeeping of the source does not affect the
result and is not modelled. -/
def acceptTriple (P : StdStr) (pr : Json × List String) : Option (String × String × ℚ) :=
  match pr.1 with
  | .obj kvs =>
    match extract_record P kvs pr.2 with
    | (some p, some b, some r) =>
      if (p = "Lighter" ∨ p = "Hyperliquid") ∧ b ≠ "" then some (p, b, r) else none
    | _ => none
  | _ => none

/-- Models `fetch_agg` (funding.py lines 145-190) applied to the
decoded aggregator payload: walk the document, filter to accepted
triples, and fold them into the table and the Lighter seed list. -/
def fetch_agg (P : StdStr) (data : Json) : Tbl × List String :=
  reconFold ((traverse data []).filterMap (acceptTriple P))

/-- Keep an element only if it has not been seen yet. -/
def dedupStep (acc : List String) (x : String) : List String :=
  if x ∈ acc then acc else acc ++ [x]

/-- Distinct elements of a list in first-seen order (the specification
of the seed list, defined independently of the reconciler). -/
def firstSeen (l : List String) : List String := l.foldl dedupStep []

/-- The bases of the triples recorded under the seed venue, in stream
order. -/
def lighterBases (ts : List (String × String × ℚ)) : List String :=
  ts.filterMap (fun tr => if tr.1 = "Lighter" then some tr.2.1 else none)

/-! The Paradex side (funding.py lines 193-254) and the probe loop of
`main` (lines 312-318). -/

/-- Models `d.get(k)` on a dict. -/
def jGet : List (String × Json) → String → Option Json
  | [], _ => none
  | e :: t, k => if e.1 = k then some e.2 else jGet t k

/-- Python `a or b` over optional JSON values (a missing key is `None`,
hence falsy). -/
def pyOrJ (a b : Option Json) : Option Json :=
  match a with
  | some j => if truthy j then some j else b
  | none => b

/-- Python `a or b` over optional floats: `None` and `0.0` are falsy. -/
def pyOrQ (a b : Option ℚ) : Option ℚ :=
  match a with
  | some x => if x ≠ 0 then some x else b
  | none => b

/-- Models `_parse_ts` (funding.py lines 193-205): numbers above 1e12
are epoch milliseconds and are divided by 1000, booleans are `int`
subclasses, strings go to the stdlib ISO parser, everything else gives
no value. -/
def parse_ts (P : StdStr) : Json → Option ℚ
  | .num x => some (if 10 ^ 12 < x then x / 1000 else x)
  | .bool b => some (if b then 1 else 0)
  | .str s => P.tsOfStr s
  | _ => none

/-- The rate of one Paradex history entry (funding.py lines 218-222):
a truthiness `or` chain over the three alias keys, then `float`. -/
def rateOf (P : StdStr) (kvs : List (String × Json)) : Option ℚ :=
  match pyOrJ (jGet kvs "funding_rate")
      (pyOrJ (jGet kvs "fundingRate") (jGet kvs "hourly_funding_rate")) with
  | none => none
  | some j => asFloat P j

/-- `_parse_ts` applied to the result of `it.get(key)`: a missing key
is Python `None`, for which `_parse_ts` returns `None` (its first
line), just as it does for a JSON null value. -/
def parseGet (P : StdStr) (o : Option Json) : Option ℚ :=
  match o with
  | none => none
  | some j => parse_ts P j

/-- The timestamp of one Paradex history entry (funding.py lines
224-226): a truthiness `or` chain over the parsed alias keys. -/
def tsChain (P : StdStr) (kvs : List (String × Json)) : Option ℚ :=
  pyOrQ (parseGet P (jGet kvs "timestamp"))
    (pyOrQ (parseGet P (jGet kvs "time"))
      (pyOrQ (parseGet P (jGet kvs "ts"))
        (pyOrQ (parseGet P (jGet kvs "created_at"))
          (parseGet P (jGet kvs "updated_at")))))

/-- One iteration of the `extract_paradex_latest` loop (funding.py
lines 216-229) on the state (best_rate, best_ts): skip non-dict and
rate-less entries, give a chain-less entry the synthetic timestamp
best_ts + 1, and take over the state on a strictly larger timestamp. -/
def pdxStep (P : StdStr) (st : Option ℚ × ℚ) (it : Json) : Option ℚ × ℚ :=
  match it with
  | .obj kvs =>
    match rateOf P kvs with
    | none => st
    | some rate =>
      let t := match tsChain P kvs with
        | none => st.2 + 1
        | some x => x
      if st.2 < t then (some rate, t) else st
  | _ => st

/-- The entry list of a Paradex payload (funding.py lines 208-213): a
bare list is itself, a dict exposes it under the first truthy of
`data`, `results`, `items`; anything else has none. -/
def itemsOf : Json → Option (List Json)
  | .arr l => some l
  | .obj kvs =>
    match pyOrJ (jGet kvs "data") (pyOrJ (jGet kvs "results") (jGet kvs "items")) with
    | some (.arr l) => some l
    | _ => none
  | _ => none

/-- Models `extract_paradex_latest` (funding.py lines 207-230). -/
def extract_paradex_latest (P : StdStr) (payload : Json) : Option ℚ :=
  match itemsOf payload with
  | none => none
  | some items =>
    if items.isEmpty then none
    else (items.foldl (pdxStep P) (none, -1)).1

/-! Specification-side definitions for the latest-entry selection
claim, written from the claim's own words: collect the entries with a
chain-parseable rate, assign effective timestamps (synthetic ones one
above the best so far), and return the rate of the first entry
attaining the maximum effective timestamp. -/

/-- Specification: the (rate, optional chain timestamp) pairs of the
entries that yield a parseable rate, in declared order. -/
def ratedEntries (P : StdStr) (items : List Json) : List (ℚ × Option ℚ) :=
  items.filterMap (fun it =>
    match it with
    | .obj kvs => (rateOf P kvs).map (fun r => (r, tsChain P kvs))
    | _ => none)

/-- Specification: assign effective timestamps, carrying the best
timestamp seen so far; a timestamp-less entry gets best + 1. -/
def assignEff (best : ℚ) : List (ℚ × Option ℚ) → List (ℚ × ℚ)
  | [] => []
  | (r, some t) :: rest => (r, t) :: assignEff (max best t) rest
  | (r, none) :: rest => (r, best + 1) :: assignEff (best + 1) rest

/-- The maximum of the effective timestamps of a list, starting from a
floor `bt`. -/
def maxFrom (bt : ℚ) : List (ℚ × ℚ) → ℚ
  | [] => bt
  | p :: l => maxFrom (max bt p.2) l

/-- Specification: the rate of the first entry attaining the maximum
effective timestamp, provided that maximum exceeds the initial
sentinel -1. -/
def selectLatestSpec (l : List (ℚ × ℚ)) : Option ℚ :=
  if -1 < maxFrom (-1) l
  then (l.find? (fun p => decide (p.2 = maxFrom (-1) l))).map Prod.fst
  else none

/-- Specification composition for the whole function: entry list, rate
filter, effective timestamps, first-maximum selection. -/
def pdxLatestSpec (P : StdStr) (payload : Json) : Option ℚ :=
  match itemsOf payload with
  | none => none
  | some items => selectLatestSpec (assignEff (-1) (ratedEntries P items))

/-- The selection fold on effective-timestamp pairs (the
strictly-improving update of the source loop). -/
def pickFold : Option ℚ × ℚ → List (ℚ × ℚ) → Option ℚ × ℚ
  | st, [] => st
  | st, p :: l => pickFold (if st.2 < p.2 then (some p.1, p.2) else st) l

/-! The market probe (`fetch_paradex_latest_for_base`, funding.py
lines 232-254).  The HTTP client is an oracle from market identifier
to response; network failures, `raise_for_status` (any non-2xx other
than the explicitly handled 404) and a body that fails to decode are
all non-fatal and move to the next quote. -/

/-- One HTTP outcome: a raised transport error, or a status code with
an optionally decodable JSON body. -/
inductive Resp where
  | netErr : Resp
  | ok : Nat → Option Json → Resp

/-- The market identifier built per quote (funding.py line 234). -/
def mktId (base q : String) : String := base ++ "-" ++ q ++ "-PERP"

/-- The outcome of probing a single quote currency (the body of the
loop in funding.py lines 233-251). -/
def tryQuote (P : StdStr) (client : String → Resp) (base q : String) : Option ℚ :=
  match client (mktId base q) with
  | .netErr => none
  | .ok st body =>
    if st = 404 then none
    else if ¬ (200 ≤ st ∧ st ≤ 299) then none
    else match body with
      | none => none
      | some j => extract_paradex_latest P j

/-- Models `fetch_paradex_latest_for_base` instrumented with the list
of market identifiers requested, in request order: each quote issues
one request; a 404, any other non-2xx, a transport error, a bad body
or a rate-less payload move on to the next quote; a parseable rate
returns immediately. -/
def fetchTrace (P : StdStr) (base : String) (quotes : List String)
    (client : String → Resp) : Option ℚ × List String :=
  match quotes with
  | [] => (none, [])
  | q :: qs =>
    let mkt := mktId base q
    let next := fetchTrace P base qs client
    match client mkt with
    | .netErr => (next.1, mkt :: next.2)
    | .ok st body =>
      if st = 404 then (next.1, mkt :: next.2)
      else if ¬ (200 ≤ st ∧ st ≤ 299) then (next.1, mkt :: next.2)
      else match body with
        | none => (next.1, mkt :: next.2)
        | some j =>
          match extract_paradex_latest P j with
          | some r => (some r, [mkt])
          | none => (next.1, mkt :: next.2)

/-- Models `fetch_paradex_latest_for_base` (funding.py lines 232-254):
the rate component of the instrumented probe. -/
def fetch_paradex_latest_for_base (P : StdStr) (base : String) (quotes : List String)
    (client : String → Resp) : Option ℚ :=
  (fetchTrace P base quotes client).1

/-- One iteration of the Paradex probe loop of `main` (funding.py
lines 313-317): fetch, `setdefault` the row, and store the rate under
the Paradex column only when one was found. -/
def probeStep (P : StdStr) (quotes : List String) (client : String → Resp)
    (t : Tbl) (b : String) : Tbl :=
  let t1 := setdefaultRow t b
  match fetch_paradex_latest_for_base P b quotes client with
  | some r => writeRate t1 b "Paradex" r
  | none => t1

/-- Models the Paradex probe loop of `main` (funding.py lines
312-318). -/
def probeAll (P : StdStr) (bases quotes : List String) (client : String → Resp)
    (tbl : Tbl) : Tbl :=
  bases.foldl (probeStep P quotes client) tbl

/-! Claim C1: the rate normalizer. -/

/-- C1: on a parseable scalar `v`, `coerce_rate` scales by 1/100 iff
1 < |v| ≤ 100, otherwise keeps `v`, and yields no value whenever the
post-scaling magnitude exceeds 0.5; an input of exactly 1 is not
scaled (already-fractional) and is then rejected by the magnitude
guard; 3.2 maps to 0.032, 0.015 to 0.015, and 60 to no value. -/
theorem coerce_rate_claim (P : StdStr) :
    (∀ j v, asFloat P j = some v →
      coerce_rate P j =
        (let y := if 1 < |v| ∧ |v| ≤ 100 then v / 100 else v
         if 1 / 2 < |y| then none else some y)) ∧
    coerce_rate P (.num 1) = none ∧
    coerce_rate P (.num (16 / 5)) = some (4 / 125) ∧
    coerce_rate P (.num (3 / 200)) = some (3 / 200) ∧
    coerce_rate P (.num 60) = none := by
  refine ⟨fun j v h => ?_, ?_, ?_, ?_, ?_⟩
  · simp only [coerce_rate, h, absQ_eq_abs, mkRat_half]
  all_goals norm_num [coerce_rate, asFloat, absQ, mkRat_half]

/-- Witness for C1 at the concrete parseable scalar 7 (a percentage:
the guard passes and the result is 7/100). -/
theorem coerce_rate_claim_witness :
    asFloat noStr (.num 7) = some 7 ∧
    coerce_rate noStr (.num 7) =
      (let y := if 1 < |(7 : ℚ)| ∧ |(7 : ℚ)| ≤ 100 then (7 : ℚ) / 100 else 7
       if 1 / 2 < |y| then none else some y) :=
  ⟨rfl, (coerce_rate_claim noStr).1 (.num 7) 7 rfl⟩

/-! Claim C6: base extraction. -/

/-- Claim-side tokenization, written from the claim's words: the
non-empty tokens of the symbol after upper-casing and splitting on the
separators `-`, `/` and `__`, with no whitespace stripping. -/
def claimFirstTok (s : String) : Option String :=
  ((((splitL "-".data (upperStr s).data).flatMap (splitL "/".data)).flatMap
      (splitL "__".data)).filter (fun p => p ≠ [])).head?.map String.mk

/-- Counterexample to C6 as stated: for the symbol " A" the first
non-empty token after upper-casing and splitting is " A" itself, yet
`base_from_symbol` also strips whitespace and returns "A". -/
theorem base_from_symbol_cex :
    claimFirstTok " A" = some " A" ∧ base_from_symbol " A" = "A" ∧ (" A" : String) ≠ "A" :=
  ⟨by decide, by decide, by decide⟩

/-- C6 amended: `base_from_symbol` returns the first non-empty token
of the symbol after upper-casing, rewriting `/` and `__` to `-` and
stripping surrounding whitespace, then splitting on `-`; the examples
hold, and the empty string maps to the sentinel "?". -/
theorem base_from_symbol_amended :
    base_from_symbol "BTC/USDT" = "BTC" ∧ base_from_symbol "eth-perp" = "ETH" ∧
    base_from_symbol "A__B-C" = "A" ∧ base_from_symbol "" = "?" ∧
    ∀ s, normTokens s ≠ [] → base_from_symbol s = String.mk ((normTokens s).headD []) := by
  refine ⟨by decide, by decide, by decide, by decide, fun s h => ?_⟩
  rw [base_from_symbol]
  cases hp : normTokens s with
  | nil => exact absurd hp h
  | cons p t => rfl

/-- Witness for C6 amended at the symbol "BTC/USDT". -/
theorem base_from_symbol_amended_witness :
    normTokens "BTC/USDT" ≠ [] ∧
    base_from_symbol "BTC/USDT" = String.mk ((normTokens "BTC/USDT").headD []) :=
  ⟨by decide, base_from_symbol_amended.2.2.2.2 "BTC/USDT" (by decide)⟩

/-! Claim C7: the platform identity resolver. -/

/-- C7: the resolver maps "zkLighter" to Lighter, "HyperliquidV2" to
Hyperliquid and leaves "dYdX" unresolved; its result is always one of
the two canonical venues or unresolved; and an exact match of the
cleaned label against the alias table always resolves to that entry's
venue (exact matches take priority over containment). -/
theorem norm_platform_label_claim :
    norm_platform_label "zkLighter" = some "Lighter" ∧
    norm_platform_label "HyperliquidV2" = some "Hyperliquid" ∧
    norm_platform_label "dYdX" = none ∧
    (∀ raw, norm_platform_label raw = none ∨ norm_platform_label raw = some "Lighter" ∨
      norm_platform_label raw = some "Hyperliquid") ∧
    (∀ raw kv, kv ∈ PLAT_MAP → clean_alnum raw = kv.1 →
      norm_platform_label raw = some kv.2) := by
  refine ⟨by decide, by decide, by decide, fun raw => ?_, fun raw kv hmem heq => ?_⟩
  · rw [norm_platform_label]
    split
    · exact Or.inl rfl
    · cases h1 : PLAT_MAP.find? (fun kv => kv.1 = clean_alnum raw) with
      | some kv =>
        have hm := List.mem_of_find?_eq_some h1
        rw [PLAT_MAP] at hm
        simp only [List.mem_cons, List.not_mem_nil, or_false] at hm
        rcases hm with rfl | rfl | rfl | rfl | rfl <;> simp
      | none =>
        cases h2 : PLAT_MAP.find? (fun kv => substrOf kv.1 (clean_alnum raw)) with
        | some kv =>
          have hm := List.mem_of_find?_eq_some h2
          rw [PLAT_MAP] at hm
          simp only [List.mem_cons, List.not_mem_nil, or_false] at hm
          rcases hm with rfl | rfl | rfl | rfl | rfl <;> simp
        | none => simp
  · rw [PLAT_MAP] at hmem
    simp only [List.mem_cons, List.not_mem_nil, or_false] at hmem
    rcases hmem with rfl | rfl | rfl | rfl | rfl
    all_goals
      have hraw : ¬ raw = "" := by
        intro h0
        rw [h0] at heq
        exact absurd heq (by decide)
    all_goals rw [norm_platform_label, if_neg hraw, heq]
    all_goals decide

/-- Witness for C7 at the label "Hyper!", whose cleaned form exactly
matches the alias-table entry ("hyper", "Hyperliquid"). -/
theorem norm_platform_label_claim_witness :
    ("hyper", "Hyperliquid") ∈ PLAT_MAP ∧ clean_alnum "Hyper!" = "hyper" ∧
    norm_platform_label "Hyper!" = some "Hyperliquid" :=
  ⟨by decide, by decide,
    norm_platform_label_claim.2.2.2.2 "Hyper!" ("hyper", "Hyperliquid") (by decide) (by decide)⟩

/-! Helper lemmas about the Paradex loop step on simple history
entries carrying a `funding_rate` and a `timestamp`. -/

/-- A Paradex history entry with a rate and a numeric timestamp. -/
def pdxEntry (r t : ℚ) : Json :=
  .obj [("funding_rate", .num r), ("timestamp", .num t)]

/-- The rate of a simple entry with a nonzero rate. -/
theorem rateOf_pdxEntry (P : StdStr) (r t : ℚ) (hr : r ≠ 0) :
    rateOf P [("funding_rate", Json.num r), ("timestamp", Json.num t)] = some r := by
  norm_num [rateOf, pyOrJ, jGet, truthy, asFloat, hr]

/-- The timestamp chain of a simple entry with a nonzero timestamp in
the epoch-seconds range. -/
theorem tsChain_pdxEntry (P : StdStr) (r t : ℚ) (ht : t ≠ 0) (ht2 : ¬ (10 ^ 12 < t)) :
    tsChain P [("funding_rate", Json.num r), ("timestamp", Json.num t)] = some t := by
  norm_num at ht2
  have ht3 : ¬ ((1000000000000 : ℚ) < t) := not_lt.mpr ht2
  norm_num [tsChain, ht3, parseGet, parse_ts, pyOrQ, jGet, ht,
    (show ("funding_rate" : String) ≠ "timestamp" from by decide),
    (show ("funding_rate" : String) ≠ "time" from by decide),
    (show ("timestamp" : String) ≠ "time" from by decide),
    (show ("funding_rate" : String) ≠ "ts" from by decide),
    (show ("timestamp" : String) ≠ "ts" from by decide),
    (show ("funding_rate" : String) ≠ "created_at" from by decide),
    (show ("timestamp" : String) ≠ "created_at" from by decide),
    (show ("funding_rate" : String) ≠ "updated_at" from by decide),
    (show ("timestamp" : String) ≠ "updated_at" from by decide)]

/-- The loop step on a simple entry: strictly-improving update. -/
theorem pdxStep_pdxEntry (P : StdStr) (st : Option ℚ × ℚ) (r t : ℚ) (hr : r ≠ 0)
    (ht : t ≠ 0) (ht2 : ¬ (10 ^ 12 < t)) :
    pdxStep P st (pdxEntry r t) = if st.2 < t then (some r, t) else st := by
  rw [pdxEntry, pdxStep, rateOf_pdxEntry P r t hr, tsChain_pdxEntry P r t ht ht2]

/-- The loop step skips a simple entry whose rate is the numeric 0:
the truthiness chain makes it rate-less. -/
theorem pdxStep_pdxEntry_zero (P : StdStr) (st : Option ℚ × ℚ) (t : ℚ) :
    pdxStep P st (pdxEntry 0 t) = st := by
  norm_num [pdxStep, pdxEntry, rateOf, pyOrJ, jGet, truthy,
    (show ("funding_rate" : String) ≠ "fundingRate" from by decide),
    (show ("timestamp" : String) ≠ "fundingRate" from by decide),
    (show ("funding_rate" : String) ≠ "hourly_funding_rate" from by decide),
    (show ("timestamp" : String) ≠ "hourly_funding_rate" from by decide)]

/-! Claim C10: a numeric zero rate is skipped by the truthiness chain. -/

/-- C10: an entry whose only rate alias is `funding_rate: 0` is
treated as rate-less: the loop step leaves the state unchanged; a
payload of only such an entry yields no value; and a later zero-rate
entry never wins over an older entry, even with a newer timestamp. -/
theorem paradex_zero_rate_claim :
    (∀ (P : StdStr) (st : Option ℚ × ℚ) (kvs : List (String × Json)),
      jGet kvs "funding_rate" = some (.num 0) →
      jGet kvs "fundingRate" = none →
      jGet kvs "hourly_funding_rate" = none →
      pdxStep P st (.obj kvs) = st) ∧
    (∀ P, extract_paradex_latest P
      (.arr [.obj [("funding_rate", .num 0), ("timestamp", .num 100)]]) = none) ∧
    (∀ (P : StdStr) (r1 : ℚ), r1 ≠ 0 →
      extract_paradex_latest P
        (.arr [.obj [("funding_rate", .num r1), ("timestamp", .num 300)],
               .obj [("funding_rate", .num 0), ("timestamp", .num 400)]]) = some r1) := by
  refine ⟨fun P st kvs h1 h2 h3 => ?_, fun P => rfl, fun P r1 h => ?_⟩
  · simp [pdxStep, rateOf, h1, h2, h3, pyOrJ, truthy]
  · show extract_paradex_latest P (.arr [pdxEntry r1 300, pdxEntry 0 400]) = some r1
    have e1 := pdxStep_pdxEntry P (none, -1) r1 300 h (by norm_num) (by norm_num)
    norm_num at e1
    simp only [extract_paradex_latest, itemsOf]
    norm_num [List.foldl, e1, pdxStep_pdxEntry_zero]

/-- Witness for C10 on a one-key entry whose rate alias holds the
numeric value 0, and for the two-entry payload at rate 1. -/
theorem paradex_zero_rate_claim_witness :
    (jGet [("funding_rate", Json.num 0)] "funding_rate" = some (.num 0) ∧
      jGet [("funding_rate", Json.num 0)] "fundingRate" = none ∧
      jGet [("funding_rate", Json.num 0)] "hourly_funding_rate" = none ∧
      pdxStep noStr (none, -1) (.obj [("funding_rate", Json.num 0)]) = (none, -1)) ∧
    ((1 : ℚ) ≠ 0 ∧ extract_paradex_latest noStr
      (.arr [.obj [("funding_rate", .num 1), ("timestamp", .num 300)],
             .obj [("funding_rate", .num 0), ("timestamp", .num 400)]]) = some 1) :=
  ⟨⟨rfl, rfl, rfl, paradex_zero_rate_claim.1 noStr (none, -1) _ rfl rfl rfl⟩,
    ⟨one_ne_zero, paradex_zero_rate_claim.2.2 noStr 1 one_ne_zero⟩⟩

/-! Claim C4: the tree walker. -/

mutual

/-- Every pair yielded by the walker carries an object node. -/
theorem travAllObj : ∀ (j : Json) (p : List String),
    ((traverse j p).all fun pr => pr.1.isObj) = true
  | .null, p => by simp [traverse]
  | .bool b, p => by simp [traverse]
  | .num q, p => by simp [traverse]
  | .str s, p => by simp [traverse]
  | .arr l, p => by
    rw [traverse]
    exact travAllObjArr l 0 p
  | .obj kvs, p => by
    rw [traverse]
    simp only [List.all_cons, Json.isObj, Bool.true_and]
    exact travAllObjKVs kvs p

/-- Object-only yield, dict-entry walk. -/
theorem travAllObjKVs : ∀ (kvs : List (String × Json)) (p : List String),
    ((traverseKVs kvs p).all fun pr => pr.1.isObj) = true
  | [], p => by simp [traverseKVs]
  | kv :: rest, p => by
    rw [traverseKVs]
    simp only [List.all_append, Bool.and_eq_true]
    exact ⟨travAllObj kv.2 (p ++ [kv.1]), travAllObjKVs rest p⟩

/-- Object-only yield, list-element walk. -/
theorem travAllObjArr : ∀ (l : List Json) (i : Nat) (p : List String),
    ((traverseArr l i p).all fun pr => pr.1.isObj) = true
  | [], i, p => by simp [traverseArr]
  | v :: rest, i, p => by
    rw [traverseArr]
    simp only [List.all_append, Bool.and_eq_true]
    exact ⟨travAllObj v (p ++ [toString i]), travAllObjArr rest (i + 1) p⟩

end

mutual

/-- The walker yields exactly one pair per object node. -/
theorem travLen : ∀ (j : Json) (p : List String), (traverse j p).length = countObjs j
  | .null, p => by simp [traverse, countObjs]
  | .bool b, p => by simp [traverse, countObjs]
  | .num q, p => by simp [traverse, countObjs]
  | .str s, p => by simp [traverse, countObjs]
  | .arr l, p => by
    rw [traverse, countObjs]
    exact travLenArr l 0 p
  | .obj kvs, p => by
    rw [traverse, countObjs]
    simp only [List.length_cons, travLenKVs kvs p]
    omega

/-- One pair per object node, dict-entry walk. -/
theorem travLenKVs : ∀ (kvs : List (String × Json)) (p : List String),
    (traverseKVs kvs p).length = countObjsKVs kvs
  | [], p => by simp [traverseKVs, countObjsKVs]
  | kv :: rest, p => by
    rw [traverseKVs, countObjsKVs]
    simp only [List.length_append, travLen kv.2 (p ++ [kv.1]), travLenKVs rest p]

/-- One pair per object node, list-element walk. -/
theorem travLenArr : ∀ (l : List Json) (i : Nat) (p : List String),
    (traverseArr l i p).length = countObjsList l
  | [], i, p => by simp [traverseArr, countObjsList]
  | v :: rest, i, p => by
    rw [traverseArr, countObjsList]
    simp only [List.length_append, travLen v (p ++ [toString i]), travLenArr rest (i + 1) p]

end

/-- C4: on the nested-object example the walker visits the object
paths (), ("a"), ("a","b") in that order; in general every yielded
pair carries an object node (so scalars and arrays are never yielded),
exactly one pair is yielded per object node, a dict node is yielded
before all of its descendants, and list elements are walked with their
stringified index appended to the path (a scalar element contributing
nothing). -/
theorem traverse_claim :
    (traverse (.obj [("a", .obj [("b", .obj [("c", .num 1)])])]) []).map Prod.snd =
      [[], ["a"], ["a", "b"]] ∧
    (∀ (j : Json) (p : List String), ((traverse j p).all fun pr => pr.1.isObj) = true) ∧
    (∀ (j : Json) (p : List String), (traverse j p).length = countObjs j) ∧
    (∀ (kvs : List (String × Json)) (p : List String),
      (traverse (.obj kvs) p).head? = some (.obj kvs, p)) ∧
    (∀ (kvs : List (String × Json)) (p : List String),
      traverse (.arr [.num 7, .obj kvs]) p = traverse (.obj kvs) (p ++ ["1"])) := by
  refine ⟨by decide, travAllObj, travLen, fun kvs p => rfl, fun kvs p => ?_⟩
  show traverse (.obj kvs) (p ++ ["1"]) ++ [] = traverse (.obj kvs) (p ++ ["1"])
  exact List.append_nil _


/-! Table-lookup lemmas for the association-list dict operations. -/

/-- `setdefault` at the looked-up key: the old row, or a fresh empty
one. -/
theorem tblGet_setdefault_self : ∀ (tbl : Tbl) (b : String),
    tblGet (setdefaultRow tbl b) b = some ((tblGet tbl b).getD [])
  | [], b => by simp [setdefaultRow, tblGet]
  | e :: t, b => by
    by_cases h : e.1 = b
    · simp [setdefaultRow, tblGet, h]
    · simp [setdefaultRow, tblGet, h, tblGet_setdefault_self t b]

/-- `setdefault` leaves other keys untouched. -/
theorem tblGet_setdefault_other : ∀ (tbl : Tbl) (b b2 : String), b2 ≠ b →
    tblGet (setdefaultRow tbl b) b2 = tblGet tbl b2
  | [], b, b2, h => by simp [setdefaultRow, tblGet, Ne.symm h]
  | e :: t, b, b2, h => by
    by_cases h1 : e.1 = b
    · simp [setdefaultRow, tblGet, h1]
    · simp [setdefaultRow, tblGet, h1, tblGet_setdefault_other t b b2 h]

/-- A rate write rewrites exactly the looked-up key's row. -/
theorem tblGet_write_self : ∀ (tbl : Tbl) (b p : String) (r : ℚ),
    tblGet (writeRate tbl b p r) b = (tblGet tbl b).map (fun row => rowUpsert row p r)
  | [], b, p, r => by simp [writeRate, tblGet]
  | e :: t, b, p, r => by
    by_cases h : e.1 = b
    · simp [writeRate, tblGet, h]
    · simp [writeRate, tblGet, h, tblGet_write_self t b p r]

/-- A rate write leaves other keys untouched. -/
theorem tblGet_write_other : ∀ (tbl : Tbl) (b p : String) (r : ℚ) (b2 : String), b2 ≠ b →
    tblGet (writeRate tbl b p r) b2 = tblGet tbl b2
  | [], b, p, r, b2, h => by simp [writeRate, tblGet]
  | e :: t, b, p, r, b2, h => by
    by_cases h1 : e.1 = b
    · have h2 : ¬ e.1 = b2 := by
        rw [h1]
        exact Ne.symm h
      simp [writeRate, tblGet, h1, h2, Ne.symm h]
    · simp [writeRate, tblGet, h1, tblGet_write_other t b p r b2 h]

/-- A row upsert stores the value at the written key. -/
theorem rowGet_upsert_self : ∀ (row : Row) (p : String) (r : ℚ),
    rowGet (rowUpsert row p r) p = some r
  | [], p, r => by simp [rowUpsert, rowGet]
  | e :: t, p, r => by
    by_cases h : e.1 = p
    · simp [rowUpsert, rowGet, h]
    · simp [rowUpsert, rowGet, h, rowGet_upsert_self t p r]

/-- A row upsert leaves other keys untouched. -/
theorem rowGet_upsert_other : ∀ (row : Row) (p : String) (r : ℚ) (p2 : String), p2 ≠ p →
    rowGet (rowUpsert row p r) p2 = rowGet row p2
  | [], p, r, p2, h => by simp [rowUpsert, rowGet, Ne.symm h]
  | e :: t, p, r, p2, h => by
    by_cases h1 : e.1 = p
    · have h2 : ¬ e.1 = p2 := by
        rw [h1]
        exact Ne.symm h
      simp [rowUpsert, rowGet, h1, h2, Ne.symm h]
    · simp [rowUpsert, rowGet, h1, rowGet_upsert_other t p r p2 h]

/-! Claim C3: the market probe tries quotes in order, non-fatally. -/

/-- The one-step unfolding of the probe: the head quote issues its one
request first; a successful parse returns immediately with a
single-request trace, and any failure (transport error, 404, other
non-2xx, bad body, rate-less payload) falls through to the remaining
quotes, keeping the head request in the trace. -/
theorem fetchTrace_cons (P : StdStr) (base : String) (client : String → Resp)
    (q : String) (qs : List String) :
    fetchTrace P base (q :: qs) client =
      if (tryQuote P client base q).isSome
      then (tryQuote P client base q, [mktId base q])
      else ((fetchTrace P base qs client).1, mktId base q :: (fetchTrace P base qs client).2) := by
  rw [fetchTrace]
  cases hc : client (mktId base q) with
  | netErr => simp [tryQuote, hc]
  | ok st body =>
    by_cases h404 : st = 404
    · simp [tryQuote, hc, h404]
    · by_cases hsucc : 200 ≤ st ∧ st ≤ 299
      · cases body with
        | none => simp [tryQuote, hc, h404, hsucc]
        | some j =>
          cases hr : extract_paradex_latest P j with
          | some r => simp [tryQuote, hc, h404, hsucc, hr]
          | none => simp [tryQuote, hc, h404, hsucc, hr]
      · simp [tryQuote, hc, h404, hsucc]

/-- If every quote's attempt fails, the probe returns no value. -/
theorem fetchTrace_none (P : StdStr) (base : String) (client : String → Resp) :
    ∀ quotes : List String, (∀ q ∈ quotes, tryQuote P client base q = none) →
      fetch_paradex_latest_for_base P base quotes client = none
  | [], _ => rfl
  | q :: qs, hall => by
    rw [fetch_paradex_latest_for_base, fetchTrace_cons, hall q (List.mem_cons_self q qs)]
    simp only [Option.isSome_none, Bool.false_eq_true, if_false]
    exact fetchTrace_none P base client qs (fun q2 hq => hall q2 (List.mem_cons_of_mem _ hq))

/-- The oracle of the probe-ordering scenario: BTC-USD-PERP is a 404,
BTC-USDC-PERP succeeds with one entry of rate 3, everything else is a
transport error. -/
def cl3 : String → Resp := fun m =>
  if m = "BTC-USD-PERP" then .ok 404 none
  else if m = "BTC-USDC-PERP" then
    .ok 200 (some (.arr [.obj [("funding_rate", .num 3), ("timestamp", .num 100)]]))
  else .netErr

/-- C3: the probe unfolds quote-by-quote in the caller's order,
stopping at the first quote whose attempt parses a rate and treating
every failure as non-fatal; it returns no value when every quote's
attempt fails; and in the two-quote scenario where only the USDC
market exists, exactly the two requests USD-then-USDC are issued and
the result is the USDC rate. -/
theorem probe_claim :
    (∀ (P : StdStr) (base : String) (client : String → Resp) (q : String) (qs : List String),
      fetchTrace P base (q :: qs) client =
        if (tryQuote P client base q).isSome
        then (tryQuote P client base q, [mktId base q])
        else ((fetchTrace P base qs client).1, mktId base q :: (fetchTrace P base qs client).2)) ∧
    (∀ (P : StdStr) (base : String) (quotes : List String) (client : String → Resp),
      (∀ q ∈ quotes, tryQuote P client base q = none) →
      fetch_paradex_latest_for_base P base quotes client = none) ∧
    (∀ P : StdStr, fetchTrace P "BTC" ["USD", "USDC"] cl3 =
      (some 3, ["BTC-USD-PERP", "BTC-USDC-PERP"])) :=
  ⟨fetchTrace_cons, fun P base quotes client => fetchTrace_none P base client quotes,
    fun P => rfl⟩

/-- A client whose every request raises a transport error. -/
def errClient : String → Resp := fun _ => .netErr

/-- Witness for C3: with the all-error client and the single quote
USD, every attempt fails and the probe returns no value. -/
theorem probe_claim_witness :
    (∀ q ∈ (["USD"] : List String), tryQuote noStr errClient "BTC" q = none) ∧
    fetch_paradex_latest_for_base noStr "BTC" ["USD"] errClient = none :=
  have hall : ∀ q ∈ (["USD"] : List String), tryQuote noStr errClient "BTC" q = none := by
    intro q hq
    rw [List.mem_singleton] at hq
    subst hq
    rfl
  ⟨hall, probe_claim.2.1 noStr "BTC" ["USD"] errClient hall⟩


/-! Claim C8: probe failures never remove an asset from the table. -/

/-- One probe iteration leaves the rows of other bases untouched. -/
theorem tblGet_probeStep_other (P : StdStr) (quotes : List String)
    (client : String → Resp) (t : Tbl) (b b2 : String) (h : b2 ≠ b) :
    tblGet (probeStep P quotes client t b) b2 = tblGet t b2 := by
  rw [probeStep]
  cases fetch_paradex_latest_for_base P b quotes client with
  | none => exact tblGet_setdefault_other t b b2 h
  | some r => rw [tblGet_write_other _ b _ r b2 h, tblGet_setdefault_other t b b2 h]

/-- The probe loop leaves the row of a base outside the probed list
untouched. -/
theorem tblGet_probeAll_not_mem (P : StdStr) (quotes : List String)
    (client : String → Resp) :
    ∀ (bases : List String) (tbl : Tbl) (b : String), b ∉ bases →
      tblGet (probeAll P bases quotes client tbl) b = tblGet tbl b
  | [], tbl, b, _ => rfl
  | b0 :: rest, tbl, b, hnm => by
    have h2 : b ∉ rest := fun hr => hnm (List.mem_cons_of_mem _ hr)
    have h1 : b ≠ b0 := fun he => hnm (he ▸ List.mem_cons_self b0 rest)
    show tblGet (probeAll P rest quotes client (probeStep P quotes client tbl b0)) b = _
    rw [tblGet_probeAll_not_mem P quotes client rest _ b h2,
      tblGet_probeStep_other P quotes client tbl b0 b h1]

/-- A base in the probed list whose every probe fails still ends up
with its original (or a fresh empty) row. -/
theorem tblGet_probeAll_fail (P : StdStr) (quotes : List String)
    (client : String → Resp) :
    ∀ (bases : List String) (tbl : Tbl) (b : String), b ∈ bases →
      fetch_paradex_latest_for_base P b quotes client = none →
      tblGet (probeAll P bases quotes client tbl) b = some ((tblGet tbl b).getD [])
  | [], tbl, b, hmem, _ => absurd hmem (List.not_mem_nil b)
  | b0 :: rest, tbl, b, hmem, hfail => by
    show tblGet (probeAll P rest quotes client (probeStep P quotes client tbl b0)) b = _
    by_cases he : b = b0
    · subst he
      have hstep : probeStep P quotes client tbl b = setdefaultRow tbl b := by
        rw [probeStep, hfail]
      rw [hstep]
      by_cases hr : b ∈ rest
      · rw [tblGet_probeAll_fail P quotes client rest _ b hr hfail,
          tblGet_setdefault_self tbl b]
        simp
      · rw [tblGet_probeAll_not_mem P quotes client rest _ b hr,
          tblGet_setdefault_self tbl b]
    · have hr : b ∈ rest := by
        cases List.mem_cons.mp hmem with
        | inl h => exact absurd h he
        | inr h => exact h
      rw [tblGet_probeAll_fail P quotes client rest _ b hr hfail,
        tblGet_probeStep_other P quotes client tbl b0 b he]

/-- C8: a probed asset whose every per-quote attempt fails is still a
key of the final table, its row is its original row (or a fresh empty
one), and if its row had no Paradex column before, it still has none
after: probe failures never remove the asset and never write the
column. -/
theorem probe_keeps_asset_claim (P : StdStr) (bases quotes : List String)
    (client : String → Resp) (tbl : Tbl) (b : String)
    (hmem : b ∈ bases)
    (hfail : fetch_paradex_latest_for_base P b quotes client = none) :
    tblGet (probeAll P bases quotes client tbl) b = some ((tblGet tbl b).getD []) ∧
    (rowGet ((tblGet tbl b).getD []) "Paradex" = none →
      rowGet ((tblGet (probeAll P bases quotes client tbl) b).getD []) "Paradex" = none) := by
  have h1 := tblGet_probeAll_fail P quotes client bases tbl b hmem hfail
  refine ⟨h1, fun h2 => ?_⟩
  rw [h1]
  simpa using h2

/-- Witness for C8: a single asset BTC against the all-error client
and an empty starting table. -/
theorem probe_keeps_asset_claim_witness :
    ("BTC" ∈ (["BTC"] : List String) ∧
      fetch_paradex_latest_for_base noStr "BTC" ["USD"] errClient = none) ∧
    (tblGet (probeAll noStr ["BTC"] ["USD"] errClient []) "BTC" =
        some ((tblGet [] "BTC").getD []) ∧
      (rowGet ((tblGet [] "BTC").getD []) "Paradex" = none →
        rowGet ((tblGet (probeAll noStr ["BTC"] ["USD"] errClient []) "BTC").getD [])
          "Paradex" = none)) :=
  ⟨⟨List.mem_cons_self "BTC" [], rfl⟩,
    probe_keeps_asset_claim noStr ["BTC"] ["USD"] errClient [] "BTC"
      (List.mem_cons_self "BTC" []) rfl⟩


/-! Claims C5 and C9: the cross-venue reconciler. -/

/-- One reconciler step writes exactly the rate of its triple at the
triple's (base, platform) pair. -/
theorem rateAt_reconStep_self (st : Tbl × List String) (tr : String × String × ℚ) :
    rateAt (reconStep st tr).1 tr.2.1 tr.1 = some tr.2.2 := by
  rw [reconStep, rateAt, tblGet_write_self, tblGet_setdefault_self]
  simp [rowGet_upsert_self]

/-- One reconciler step changes no other (base, platform) pair. -/
theorem rateAt_reconStep_other (st : Tbl × List String) (tr : String × String × ℚ)
    (b2 p2 : String) (h : b2 ≠ tr.2.1 ∨ p2 ≠ tr.1) :
    rateAt (reconStep st tr).1 b2 p2 = rateAt st.1 b2 p2 := by
  by_cases hb : b2 = tr.2.1
  · have hp : p2 ≠ tr.1 := by
      cases h with
      | inl h1 => exact absurd hb h1
      | inr h2 => exact h2
    subst hb
    rw [reconStep, rateAt, tblGet_write_self, tblGet_setdefault_self, rateAt]
    cases hrow : tblGet st.1 tr.2.1 with
    | none => simp [hrow, rowGet_upsert_other _ _ _ _ hp, rowGet, Ne.symm hp]
    | some row => simp [hrow, rowGet_upsert_other _ _ _ _ hp]
  · rw [reconStep, rateAt, tblGet_write_other _ _ _ _ _ hb, tblGet_setdefault_other _ _ _ hb,
      rateAt]

/-- The seed-list component of the reconciler fold is the first-seen
dedup of the bases recorded under the seed venue. -/
theorem seeds_fold : ∀ (ts : List (String × String × ℚ)) (st : Tbl × List String),
    (ts.foldl reconStep st).2 = (lighterBases ts).foldl dedupStep st.2
  | [], st => rfl
  | tr :: rest, st => by
    rw [List.foldl_cons, seeds_fold rest (reconStep st tr)]
    by_cases hp : tr.1 = "Lighter"
    · have h1 : lighterBases (tr :: rest) = tr.2.1 :: lighterBases rest := by
        simp [lighterBases, hp]
      rw [h1, List.foldl_cons]
      have h2 : (reconStep st tr).2 = dedupStep st.2 tr.2.1 := by
        by_cases hb : tr.2.1 ∈ st.2
        · simp [reconStep, dedupStep, hb]
        · simp [reconStep, dedupStep, hb, hp]
      rw [h2]
    · have h1 : lighterBases (tr :: rest) = lighterBases rest := by
        simp [lighterBases, hp]
      have h2 : (reconStep st tr).2 = st.2 := by
        simp [reconStep, hp]
      rw [h1, h2]

/-- Folding `dedupStep` preserves distinctness. -/
theorem dedup_nodup : ∀ (l : List String) (acc : List String), acc.Nodup →
    (l.foldl dedupStep acc).Nodup
  | [], acc, h => h
  | x :: rest, acc, h => by
    rw [List.foldl_cons]
    refine dedup_nodup rest (dedupStep acc x) ?_
    rw [dedupStep]
    by_cases hx : x ∈ acc
    · rw [if_pos hx]
      exact h
    · rw [if_neg hx]
      simp [List.nodup_append, h, hx]


/-- `setdefault` keeps the key list, possibly appending the new key. -/
theorem keys_setdefault : ∀ (tbl : Tbl) (b : String),
    (setdefaultRow tbl b).map Prod.fst =
      if b ∈ tbl.map Prod.fst then tbl.map Prod.fst else tbl.map Prod.fst ++ [b]
  | [], b => by simp [setdefaultRow]
  | e :: t, b => by
    by_cases h : e.1 = b
    · simp [setdefaultRow, h]
    · have h2 : ¬ b = e.1 := fun hc => h hc.symm
      simp only [setdefaultRow, if_neg h, List.map_cons, keys_setdefault t b,
        List.mem_cons, h2, false_or]
      by_cases hm : b ∈ t.map Prod.fst
      · simp [hm]
      · simp [hm]

/-- A rate write never changes the key list. -/
theorem keys_write : ∀ (tbl : Tbl) (b p : String) (r : ℚ),
    (writeRate tbl b p r).map Prod.fst = tbl.map Prod.fst
  | [], b, p, r => rfl
  | e :: t, b, p, r => by
    by_cases h : e.1 = b
    · simp [writeRate, h]
    · simp [writeRate, h, keys_write t b p r]

/-- A row upsert keeps the key list, possibly appending the new key. -/
theorem keys_upsert : ∀ (row : Row) (p : String) (r : ℚ),
    (rowUpsert row p r).map Prod.fst =
      if p ∈ row.map Prod.fst then row.map Prod.fst else row.map Prod.fst ++ [p]
  | [], p, r => by simp [rowUpsert]
  | e :: t, p, r => by
    by_cases h : e.1 = p
    · simp [rowUpsert, h]
    · have h2 : ¬ p = e.1 := fun hc => h hc.symm
      simp only [rowUpsert, if_neg h, List.map_cons, keys_upsert t p r,
        List.mem_cons, h2, false_or]
      by_cases hm : p ∈ t.map Prod.fst
      · simp [hm]
      · simp [hm]

/-- Appending a fresh element preserves distinctness. -/
theorem nodup_append_fresh {l : List String} {x : String} (h : l.Nodup) (hx : x ∉ l) :
    (l ++ [x]).Nodup := by
  simp [List.nodup_append, h, hx]

/-- The structural dict invariant of the reconciler accumulator:
distinct base keys and, in every reachable row, distinct platform
keys. -/
def TblOk (tbl : Tbl) : Prop :=
  (tbl.map Prod.fst).Nodup ∧
    ∀ b row, tblGet tbl b = some row → (row.map Prod.fst).Nodup

/-- One reconciler step preserves the dict invariant. -/
theorem tblOk_reconStep (st : Tbl × List String) (tr : String × String × ℚ)
    (h : TblOk st.1) : TblOk (reconStep st tr).1 := by
  obtain ⟨hkeys, hrows⟩ := h
  constructor
  · rw [reconStep, keys_write, keys_setdefault]
    by_cases hm : tr.2.1 ∈ st.1.map Prod.fst
    · simpa [hm] using hkeys
    · simp only [hm, if_false]
      exact nodup_append_fresh hkeys hm
  · intro b row hget
    by_cases hb : b = tr.2.1
    · subst hb
      rw [reconStep] at hget
      rw [tblGet_write_self, tblGet_setdefault_self] at hget
      simp only [Option.map_some', Option.some_inj] at hget
      subst hget
      have hnod : (((tblGet st.1 tr.2.1).getD []).map Prod.fst).Nodup := by
        cases hrow : tblGet st.1 tr.2.1 with
        | none => simp
        | some row0 => simpa [hrow] using hrows tr.2.1 row0 hrow
      rw [keys_upsert]
      by_cases hm : tr.1 ∈ ((tblGet st.1 tr.2.1).getD []).map Prod.fst
      · simpa [hm] using hnod
      · simp only [hm, if_false]
        exact nodup_append_fresh hnod hm
    · rw [reconStep, tblGet_write_other _ _ _ _ _ hb, tblGet_setdefault_other _ _ _ hb] at hget
      exact hrows b row hget

/-- The dict invariant holds after folding any triple stream. -/
theorem tblOk_fold : ∀ (ts : List (String × String × ℚ)) (st : Tbl × List String),
    TblOk st.1 → TblOk (ts.foldl reconStep st).1
  | [], st, h => h
  | tr :: rest, st, h => by
    rw [List.foldl_cons]
    exact tblOk_fold rest (reconStep st tr) (tblOk_reconStep st tr h)


/-- C5: folding any stream of accepted (platform, base, rate) triples,
the last write for a (base, platform) pair is the stored rate and no
other pair is disturbed (so later writes overwrite earlier ones and
each pair holds at most one rate); the association lists keep distinct
keys at both levels; and the seed list is exactly the first-seen dedup
of the bases recorded under the seed venue Lighter, hence duplicate
free and in first-seen order. -/
theorem recon_claim :
    (∀ (ts : List (String × String × ℚ)) (p b : String) (r : ℚ),
      rateAt (reconFold (ts ++ [(p, b, r)])).1 b p = some r) ∧
    (∀ (ts : List (String × String × ℚ)) (p b : String) (r : ℚ) (b2 p2 : String),
      b2 ≠ b ∨ p2 ≠ p →
      rateAt (reconFold (ts ++ [(p, b, r)])).1 b2 p2 = rateAt (reconFold ts).1 b2 p2) ∧
    (∀ ts, (reconFold ts).2 = firstSeen (lighterBases ts)) ∧
    (∀ ts, (reconFold ts).2.Nodup) ∧
    (∀ ts, TblOk (reconFold ts).1) := by
  have hinit : TblOk ([] : Tbl) := ⟨List.nodup_nil, fun b row h => by simp [tblGet] at h⟩
  refine ⟨fun ts p b r => ?_, fun ts p b r b2 p2 h => ?_,
    fun ts => seeds_fold ts ([], []), fun ts => ?_, fun ts => tblOk_fold ts ([], []) hinit⟩
  · rw [reconFold, List.foldl_append]
    simpa using rateAt_reconStep_self (List.foldl reconStep ([], []) ts) (p, b, r)
  · rw [reconFold, List.foldl_append]
    simpa using rateAt_reconStep_other (List.foldl reconStep ([], []) ts) (p, b, r) b2 p2 h
  · rw [reconFold, seeds_fold ts ([], [])]
    exact dedup_nodup _ _ List.nodup_nil

/-- Witness for C5: a later write for a different base leaves ETH's
Lighter rate alone, and the one-triple table is a well-formed dict row
with distinct keys. -/
theorem recon_claim_witness :
    (("ETH" ≠ "BTC" ∨ ("Lighter" : String) ≠ "Lighter") ∧
      rateAt (reconFold ([("Lighter", "ETH", 1)] ++ [("Lighter", "BTC", 2)])).1 "ETH" "Lighter" =
        rateAt (reconFold [("Lighter", "ETH", 1)]).1 "ETH" "Lighter") ∧
    (tblGet (reconFold [("Lighter", "BTC", 2)]).1 "BTC" = some [("Lighter", 2)] ∧
      (([("Lighter", 2)] : Row).map Prod.fst).Nodup) :=
  ⟨⟨Or.inl (by decide),
    recon_claim.2.1 [("Lighter", "ETH", 1)] "Lighter" "BTC" 2 "ETH" "Lighter"
      (Or.inl (by decide))⟩,
   ⟨rfl, (recon_claim.2.2.2.2 [("Lighter", "BTC", 2)]).2 "BTC" [("Lighter", 2)] rfl⟩⟩

/-- The reconciler invariant: a base is in the seed list exactly when
its row holds a Lighter rate; preserved by the whole fold. -/
theorem recon_inv : ∀ (ts : List (String × String × ℚ)) (st : Tbl × List String),
    (∀ b, b ∈ st.2 ↔ (rateAt st.1 b "Lighter").isSome = true) →
    ∀ b, b ∈ (ts.foldl reconStep st).2 ↔
      (rateAt (ts.foldl reconStep st).1 b "Lighter").isSome = true
  | [], st, h => h
  | tr :: rest, st, h => by
    rw [List.foldl_cons]
    refine recon_inv rest (reconStep st tr) (fun b2 => ?_)
    by_cases hb : b2 = tr.2.1
    · subst hb
      by_cases hp : tr.1 = "Lighter"
      · constructor
        · intro _
          rw [← hp, rateAt_reconStep_self]
          rfl
        · intro _
          simp only [reconStep]
          by_cases hmem : tr.2.1 ∈ st.2
          · simp [hmem]
          · simp [hp, hmem]
      · have hseeds : (reconStep st tr).2 = st.2 := by simp [reconStep, hp]
        have hrate := rateAt_reconStep_other st tr tr.2.1 "Lighter"
          (Or.inr (fun hc => hp hc.symm))
        rw [hseeds, hrate]
        exact h tr.2.1
    · have hrate := rateAt_reconStep_other st tr b2 "Lighter" (Or.inl hb)
      have hseeds : (b2 ∈ (reconStep st tr).2) ↔ b2 ∈ st.2 := by
        simp only [reconStep]
        by_cases hcond : tr.1 = "Lighter" ∧ tr.2.1 ∉ st.2
        · simp [hcond, List.mem_append, hb]
        · simp [hcond]
      rw [hrate, hseeds]
      exact h b2

/-- C9: after `fetch_agg`, a base is in the returned Lighter seed list
exactly when its row in the returned table holds a Lighter rate, for
every payload; in particular every seed-list base is a key of the
table. -/
theorem fetch_agg_claim (P : StdStr) (data : Json) (b : String) :
    (b ∈ (fetch_agg P data).2 ↔ (rateAt (fetch_agg P data).1 b "Lighter").isSome = true) ∧
    (b ∈ (fetch_agg P data).2 → (tblGet (fetch_agg P data).1 b).isSome = true) := by
  have h := recon_inv ((traverse data []).filterMap (acceptTriple P)) ([], [])
    (fun b2 => by simp [rateAt, tblGet]) b
  rw [fetch_agg, reconFold]
  refine ⟨h, fun hmem => ?_⟩
  have h2 := (h.mp hmem)
  rw [rateAt] at h2
  cases hget : tblGet (List.foldl reconStep ([], [])
      ((traverse data []).filterMap (acceptTriple P))).1 b with
  | none =>
    rw [hget] at h2
    simp at h2
  | some row => rfl


/-- A tiny concrete aggregator payload: one Lighter entry for BTC with
an hourly rate of 1/100. -/
def aggData : Json :=
  .obj [("Lighter", .arr [.obj [("symbol", .str "BTC"), ("funding_rate", .num (mkRat 1 100))]])]

/-- Witness for C9 on the tiny concrete payload. -/
theorem fetch_agg_claim_witness :
    "BTC" ∈ (fetch_agg noStr aggData).2 ∧
    (tblGet (fetch_agg noStr aggData).1 "BTC").isSome = true :=
  ⟨by decide, (fetch_agg_claim noStr aggData "BTC").2 (by decide)⟩


/-! Claim C2: latest-entry selection in `extract_paradex_latest`. -/

/-- The floor never exceeds the running maximum. -/
theorem le_maxFrom : ∀ (l : List (ℚ × ℚ)) (bt : ℚ), bt ≤ maxFrom bt l
  | [], bt => le_refl bt
  | p :: l, bt => le_trans (le_max_left bt p.2) (le_maxFrom l (max bt p.2))

/-- The strictly-improving selection fold returns the rate of the
first entry attaining the maximum timestamp, provided that maximum
beats the floor, and its final floor is that maximum. -/
theorem pickFold_eq : ∀ (l : List (ℚ × ℚ)) (br : Option ℚ) (bt : ℚ),
    pickFold (br, bt) l =
      ((if bt < maxFrom bt l
        then (l.find? (fun p => decide (p.2 = maxFrom bt l))).map Prod.fst
        else br), maxFrom bt l)
  | [], br, bt => by simp [pickFold, maxFrom]
  | (r, t) :: l, br, bt => by
    have hm : maxFrom bt ((r, t) :: l) = maxFrom (max bt t) l := rfl
    by_cases hlt : bt < t
    · have hmax : max bt t = t := max_eq_right (le_of_lt hlt)
      have hM := le_maxFrom l t
      rw [show pickFold (br, bt) ((r, t) :: l) =
        pickFold (if bt < t then (some r, t) else (br, bt)) l from rfl,
        if_pos hlt, pickFold_eq l (some r) t, hm, hmax]
      have hcond : bt < maxFrom t l := lt_of_lt_of_le hlt hM
      rw [if_pos hcond]
      by_cases ht : t = maxFrom t l
      · have hpred : ((fun p => decide (p.2 = maxFrom t l)) ((r, t) : ℚ × ℚ)) = true := by
          show decide (t = maxFrom t l) = true
          rw [decide_eq_true_eq]
          exact ht
        rw [List.find?_cons_of_pos l hpred,
          if_neg (show ¬ t < maxFrom t l by rw [← ht]; exact lt_irrefl t)]
        rfl
      · have hpred : ¬ ((fun p => decide (p.2 = maxFrom t l)) ((r, t) : ℚ × ℚ)) = true := by
          show ¬ decide (t = maxFrom t l) = true
          rw [decide_eq_true_eq]
          exact ht
        rw [List.find?_cons_of_neg l hpred, if_pos (lt_of_le_of_ne hM ht)]
    · have hmax : max bt t = bt := max_eq_left (not_lt.mp hlt)
      rw [show pickFold (br, bt) ((r, t) :: l) =
        pickFold (if bt < t then (some r, t) else (br, bt)) l from rfl,
        if_neg hlt, pickFold_eq l br bt, hm, hmax]
      by_cases hcond : bt < maxFrom bt l
      · have ht : ¬ t = maxFrom bt l := by
          intro he
          rw [← he] at hcond
          exact hlt hcond
        have hpred : ¬ ((fun p => decide (p.2 = maxFrom bt l)) ((r, t) : ℚ × ℚ)) = true := by
          show ¬ decide (t = maxFrom bt l) = true
          rw [decide_eq_true_eq]
          exact ht
        rw [List.find?_cons_of_neg l hpred]
      · simp [hcond]

/-- Loop fusion: the source loop equals the selection fold applied to
the effective-timestamp assignment of the rate-filtered entries, for
any starting state. -/
theorem pdx_fusion (P : StdStr) : ∀ (items : List Json) (st : Option ℚ × ℚ),
    items.foldl (pdxStep P) st = pickFold st (assignEff st.2 (ratedEntries P items))
  | [], st => rfl
  | it :: rest, st => by
    rw [List.foldl_cons]
    cases it with
    | obj kvs =>
      cases hrate : rateOf P kvs with
      | none =>
        have hstep : pdxStep P st (.obj kvs) = st := by rw [pdxStep, hrate]
        have hentries : ratedEntries P (Json.obj kvs :: rest) = ratedEntries P rest := by
          simp [ratedEntries, hrate]
        rw [hstep, hentries]
        exact pdx_fusion P rest st
      | some r =>
        cases hts : tsChain P kvs with
        | none =>
          have hstep : pdxStep P st (.obj kvs) = (some r, st.2 + 1) := by
            rw [pdxStep, hrate, hts]
            simp [lt_add_one]
          have hentries : ratedEntries P (Json.obj kvs :: rest) =
              (r, none) :: ratedEntries P rest := by
            simp [ratedEntries, hrate, hts]
          rw [hstep, hentries,
            show assignEff st.2 ((r, none) :: ratedEntries P rest) =
              (r, st.2 + 1) :: assignEff (st.2 + 1) (ratedEntries P rest) from rfl,
            show pickFold st ((r, st.2 + 1) :: assignEff (st.2 + 1) (ratedEntries P rest)) =
              pickFold (if st.2 < st.2 + 1 then (some r, st.2 + 1) else st)
                (assignEff (st.2 + 1) (ratedEntries P rest)) from rfl,
            if_pos (lt_add_one st.2)]
          exact pdx_fusion P rest (some r, st.2 + 1)
        | some t =>
          have hstep : pdxStep P st (.obj kvs) = if st.2 < t then (some r, t) else st := by
            rw [pdxStep, hrate, hts]
          have hentries : ratedEntries P (Json.obj kvs :: rest) =
              (r, some t) :: ratedEntries P rest := by
            simp [ratedEntries, hrate, hts]
          rw [hstep, hentries,
            show assignEff st.2 ((r, some t) :: ratedEntries P rest) =
              (r, t) :: assignEff (max st.2 t) (ratedEntries P rest) from rfl,
            show pickFold st ((r, t) :: assignEff (max st.2 t) (ratedEntries P rest)) =
              pickFold (if st.2 < t then (some r, t) else st)
                (assignEff (max st.2 t) (ratedEntries P rest)) from rfl]
          by_cases hlt : st.2 < t
          · rw [if_pos hlt, max_eq_right (le_of_lt hlt)]
            exact pdx_fusion P rest (some r, t)
          · rw [if_neg hlt, max_eq_left (not_lt.mp hlt)]
            exact pdx_fusion P rest st
    | null =>
      rw [show pdxStep P st .null = st from rfl,
        show ratedEntries P (Json.null :: rest) = ratedEntries P rest by simp [ratedEntries]]
      exact pdx_fusion P rest st
    | bool b =>
      rw [show pdxStep P st (.bool b) = st from rfl,
        show ratedEntries P (Json.bool b :: rest) = ratedEntries P rest by simp [ratedEntries]]
      exact pdx_fusion P rest st
    | num q =>
      rw [show pdxStep P st (.num q) = st from rfl,
        show ratedEntries P (Json.num q :: rest) = ratedEntries P rest by simp [ratedEntries]]
      exact pdx_fusion P rest st
    | str s =>
      rw [show pdxStep P st (.str s) = st from rfl,
        show ratedEntries P (Json.str s :: rest) = ratedEntries P rest by simp [ratedEntries]]
      exact pdx_fusion P rest st
    | arr l =>
      rw [show pdxStep P st (.arr l) = st from rfl,
        show ratedEntries P (Json.arr l :: rest) = ratedEntries P rest by simp [ratedEntries]]
      exact pdx_fusion P rest st


/-- The refinement: `extract_paradex_latest` equals the declarative
selection (rate filter, effective timestamps, first entry attaining
the maximum provided it beats the -1 sentinel). -/
theorem extract_eq_spec (P : StdStr) (payload : Json) :
    extract_paradex_latest P payload = pdxLatestSpec P payload := by
  rw [extract_paradex_latest, pdxLatestSpec]
  cases hitems : itemsOf payload with
  | none => rfl
  | some items =>
    cases items with
    | nil => rfl
    | cons it rest =>
      show (if (it :: rest).isEmpty = true then none
            else (List.foldl (pdxStep P) (none, -1) (it :: rest)).1) =
          selectLatestSpec (assignEff (-1) (ratedEntries P (it :: rest)))
      rw [if_neg (by simp), pdx_fusion P (it :: rest) (none, -1), pickFold_eq]
      rfl

/-- The probe step on simple entries with a resolved comparison:
strict improvement. -/
theorem step_lt (P : StdStr) (st : Option ℚ × ℚ) (r t : ℚ) (hr : r ≠ 0) (ht : t ≠ 0)
    (ht2 : ¬ (10 ^ 12 < t)) (hlt : st.2 < t) :
    pdxStep P st (pdxEntry r t) = (some r, t) := by
  rw [pdxStep_pdxEntry P st r t hr ht ht2, if_pos hlt]

/-- The probe step on simple entries with a resolved comparison: no
improvement, state kept. -/
theorem step_ge (P : StdStr) (st : Option ℚ × ℚ) (r t : ℚ) (hr : r ≠ 0) (ht : t ≠ 0)
    (ht2 : ¬ (10 ^ 12 < t)) (hge : ¬ st.2 < t) :
    pdxStep P st (pdxEntry r t) = st := by
  rw [pdxStep_pdxEntry P st r t hr ht ht2, if_neg hge]

/-- `extract_paradex_latest` on a non-empty bare list is the loop fold. -/
theorem extract_arr (P : StdStr) (l : List Json) (h : l ≠ []) :
    extract_paradex_latest P (.arr l) = (l.foldl (pdxStep P) (none, -1)).1 := by
  cases l with
  | nil => exact absurd rfl h
  | cons a t => rfl

/-- Counterexample to C2 as stated: both entries carry parseable
nonzero rates and parseable timestamps (300 and 0; `_parse_ts` maps
the numeric 0 to 0.0), so the claimed maximum-timestamp selection
demands the rate 1 of the entry timestamped 300; but 0.0 is falsy in
the Python `or` chain, the second entry is treated as timestamp-less,
receives the synthetic timestamp 301 and wins: the code returns 2. -/
theorem paradex_latest_cex :
    parse_ts noStr (.num 0) = some 0 ∧
    extract_paradex_latest noStr (.arr [pdxEntry 1 300, pdxEntry 2 0]) = some 2 ∧
    extract_paradex_latest noStr (.arr [pdxEntry 1 300, pdxEntry 2 0]) ≠ some 1 := by
  have s1 : pdxStep noStr (none, -1) (pdxEntry 1 300) = (some 1, 300) :=
    step_lt noStr (none, -1) 1 300 (by norm_num) (by norm_num) (by norm_num) (by norm_num)
  have hts : tsChain noStr [("funding_rate", Json.num 2), ("timestamp", Json.num 0)] = none := by
    decide
  have s2 : pdxStep noStr (some 1, 300) (pdxEntry 2 0) = (some 2, 301) := by
    rw [pdxEntry, pdxStep, rateOf_pdxEntry noStr 2 0 (by norm_num), hts]
    norm_num
  have hext : extract_paradex_latest noStr (.arr [pdxEntry 1 300, pdxEntry 2 0]) = some 2 := by
    rw [extract_arr noStr _ (by simp), List.foldl_cons, s1, List.foldl_cons, s2,
      List.foldl_nil]
  refine ⟨by decide, hext, ?_⟩
  rw [hext]
  norm_num

/-- C2 amended: among the entries yielding a chain-parseable rate,
the function returns the rate of the first entry attaining the
maximum effective timestamp provided it exceeds the sentinel -1,
where the effective timestamp is the value of the truthiness `or`
chain over the parsed timestamp aliases when the chain yields one
(a parsed 0 is skipped by falsiness), and otherwise one greater than
the best effective timestamp seen so far, so declared order breaks
ties among chain-less entries; in particular, for entries with
timestamps [100, 300, 200] and nonzero rates, in any list order, the
rate returned is that of the entry timestamped 300. -/
theorem paradex_latest_amended :
    (∀ (P : StdStr) (payload : Json),
      extract_paradex_latest P payload = pdxLatestSpec P payload) ∧
    (∀ (P : StdStr) (r1 r2 r3 : ℚ), r1 ≠ 0 → r2 ≠ 0 → r3 ≠ 0 →
      extract_paradex_latest P
        (.arr [pdxEntry r1 100, pdxEntry r2 300, pdxEntry r3 200]) = some r2 ∧
      extract_paradex_latest P
        (.arr [pdxEntry r1 100, pdxEntry r3 200, pdxEntry r2 300]) = some r2 ∧
      extract_paradex_latest P
        (.arr [pdxEntry r2 300, pdxEntry r1 100, pdxEntry r3 200]) = some r2 ∧
      extract_paradex_latest P
        (.arr [pdxEntry r2 300, pdxEntry r3 200, pdxEntry r1 100]) = some r2 ∧
      extract_paradex_latest P
        (.arr [pdxEntry r3 200, pdxEntry r1 100, pdxEntry r2 300]) = some r2 ∧
      extract_paradex_latest P
        (.arr [pdxEntry r3 200, pdxEntry r2 300, pdxEntry r1 100]) = some r2) := by
  refine ⟨extract_eq_spec, fun P r1 r2 r3 h1 h2 h3 => ?_⟩
  refine ⟨?_, ?_, ?_, ?_, ?_, ?_⟩
  · rw [extract_arr P _ (by simp), List.foldl_cons,
      step_lt P (none, -1) r1 100 h1 (by norm_num) (by norm_num) (by norm_num),
      List.foldl_cons,
      step_lt P (some r1, 100) r2 300 h2 (by norm_num) (by norm_num) (by norm_num),
      List.foldl_cons,
      step_ge P (some r2, 300) r3 200 h3 (by norm_num) (by norm_num) (by norm_num),
      List.foldl_nil]
  · rw [extract_arr P _ (by simp), List.foldl_cons,
      step_lt P (none, -1) r1 100 h1 (by norm_num) (by norm_num) (by norm_num),
      List.foldl_cons,
      step_lt P (some r1, 100) r3 200 h3 (by norm_num) (by norm_num) (by norm_num),
      List.foldl_cons,
      step_lt P (some r3, 200) r2 300 h2 (by norm_num) (by norm_num) (by norm_num),
      List.foldl_nil]
  · rw [extract_arr P _ (by simp), List.foldl_cons,
      step_lt P (none, -1) r2 300 h2 (by norm_num) (by norm_num) (by norm_num),
      List.foldl_cons,
      step_ge P (some r2, 300) r1 100 h1 (by norm_num) (by norm_num) (by norm_num),
      List.foldl_cons,
      step_ge P (some r2, 300) r3 200 h3 (by norm_num) (by norm_num) (by norm_num),
      List.foldl_nil]
  · rw [extract_arr P _ (by simp), List.foldl_cons,
      step_lt P (none, -1) r2 300 h2 (by norm_num) (by norm_num) (by norm_num),
      List.foldl_cons,
      step_ge P (some r2, 300) r3 200 h3 (by norm_num) (by norm_num) (by norm_num),
      List.foldl_cons,
      step_ge P (some r2, 300) r1 100 h1 (by norm_num) (by norm_num) (by norm_num),
      List.foldl_nil]
  · rw [extract_arr P _ (by simp), List.foldl_cons,
      step_lt P (none, -1) r3 200 h3 (by norm_num) (by norm_num) (by norm_num),
      List.foldl_cons,
      step_ge P (some r3, 200) r1 100 h1 (by norm_num) (by norm_num) (by norm_num),
      List.foldl_cons,
      step_lt P (some r3, 200) r2 300 h2 (by norm_num) (by norm_num) (by norm_num),
      List.foldl_nil]
  · rw [extract_arr P _ (by simp), List.foldl_cons,
      step_lt P (none, -1) r3 200 h3 (by norm_num) (by norm_num) (by norm_num),
      List.foldl_cons,
      step_lt P (some r3, 200) r2 300 h2 (by norm_num) (by norm_num) (by norm_num),
      List.foldl_cons,
      step_ge P (some r2, 300) r1 100 h1 (by norm_num) (by norm_num) (by norm_num),
      List.foldl_nil]

/-- Witness for C2 amended at rates 1, 2, 3. -/
theorem paradex_latest_amended_witness :
    ((1 : ℚ) ≠ 0 ∧ (2 : ℚ) ≠ 0 ∧ (3 : ℚ) ≠ 0) ∧
    extract_paradex_latest noStr
      (.arr [pdxEntry 1 100, pdxEntry 2 300, pdxEntry 3 200]) = some 2 :=
  ⟨⟨one_ne_zero, by norm_num, by norm_num⟩,
   (paradex_latest_amended.2 noStr 1 2 3 one_ne_zero (by norm_num) (by norm_num)).1⟩

end FundingPy
